import Mathlib

/-!
Shallow embedding of the arXiv paper-pipeline scripts
(`scripts/arxiv_manager_min.py`, `scripts/classify_papers.py`,
`scripts/tag_papers.py`, `scripts/shuffle_papers.py`): the
harvest/dedup/merge algorithm, the classification and tagging response
parsers, the per-record failure handling of the annotation wrappers,
and the file-save primitives, together with theorems settling the
specification claims.
-/

namespace ArxivPipeline

/-- A paper record as produced by `fetch_papers` and stored in the JSON
files: `title`, `url` (the stable identifier), `abstract`, `published`
(an ISO-8601 UTC string), plus the optional annotation fields
`ai_for_hw` (added by `classify_papers.py`) and `tags` (added by
`tag_papers.py`). -/
structure Record where
  title : String
  url : String
  abstract : String
  published : String
  ai_for_hw : Option Bool := none
  tags : Option (List String) := none
deriving DecidableEq, Repr

/-- The identifier sequence of a collection: `[item["url"] for item in data]`. -/
def urls (l : List Record) : List String := l.map (·.url)

/-- One step of the harvest accumulation loop (`arxiv_manager_min.py`
lines 174-178): an item whose `url` is already in `seen_urls` — which
is always exactly the set of urls of the accumulated `new_items` — is
skipped, otherwise it is appended and its url recorded. -/
def accumStep (acc : List Record) (item : Record) : List Record :=
  if item.url ∈ urls acc then acc else acc ++ [item]

/-- The harvest accumulation (`arxiv_manager_min.py` lines 169-178)
over the concatenation of the per-query result streams (the queries run
sequentially, so the items arrive as one stream). -/
def dedupByUrl (stream : List Record) : List Record :=
  stream.foldl accumStep []

/-- Lexicographic (code-point) ≤ on character lists: Python's `<=` on
strings restricted to the data at hand. -/
def leSeq : List Char → List Char → Bool
  | [], _ => true
  | _ :: _, [] => false
  | a :: as, b :: bs =>
      if a.toNat < b.toNat then true
      else if b.toNat < a.toNat then false
      else leSeq as bs

/-- Python's `<=` on strings: lexicographic comparison by code point
(on the ISO-8601 date strings this equals chronological order). -/
def pyLE (a b : String) : Bool := leSeq a.data b.data

/-- The comparator realised by Python's stable
`sort(key=lambda x: x["published"], reverse=True)`: `a` may stay before
`b` iff `b.published <= a.published` (descending, ties keep order). -/
def pubGE (a b : Record) : Bool := pyLE b.published a.published

/-- Lines 168-182 of `arxiv_manager_min.py`: accumulate all query result
streams with url deduplication, then stable-sort by `published`
descending. -/
def harvest (streams : List (List Record)) : List Record :=
  (dedupByUrl streams.flatten).mergeSort pubGE

/-- One step of the mode-1 merge loop (`arxiv_manager_min.py` lines
199-202): an item whose url is in `existing_urls` is skipped, otherwise
it is appended to `merged` and `add_count` is incremented. -/
def mode1Step (existingUrls : List String) (st : List Record × Nat)
    (item : Record) : List Record × Nat :=
  if item.url ∈ existingUrls then st else (st.1 ++ [item], st.2 + 1)

/-- Lines 195-204 of `arxiv_manager_min.py`: the fresh items not in
`existing_urls` are collected in front, then
`merged.extend(existing_data)`. Returns the final `merged` list together
with `add_count`. -/
def mode1Merge (newItems existing : List Record) : List Record × Nat :=
  let st := newItems.foldl (mode1Step (urls existing)) ([], 0)
  (st.1 ++ existing, st.2)

/-- A file system: a map from paths to optional file contents, modelling
only what the scripts' save operations touch. -/
def FS := String → Option String

/-- Updates one path of a file system. -/
def FS.set (fs : FS) (p : String) (v : Option String) : FS :=
  fun q => if q = p then v else fs q

/-- Lines 205-209 of `arxiv_manager_min.py`: in mode 1 the file is
written (via `save_json`, a plain in-place write of the serialized
list) only when `add_count` is nonzero; when `add_count == 0` nothing
is written at all. `ser` abstracts JSON serialization. -/
def mode1Run (fs : FS) (path : String) (ser : List Record → String)
    (newItems existing : List Record) : FS :=
  let m := mode1Merge newItems existing
  if m.2 = 0 then fs else fs.set path (some (ser m.1))

/-- Unfolding of the mode-1 merge loop: starting from any accumulator it
appends exactly the items whose url is outside `existingUrls`, counting
them. -/
theorem foldl_mode1Step (eu : List String) :
    ∀ (l acc : List Record) (n : Nat),
      l.foldl (mode1Step eu) (acc, n) =
        (acc ++ l.filter (fun it => it.url ∉ eu),
         n + (l.filter (fun it => it.url ∉ eu)).length) := by
  intro l
  induction l with
  | nil => intro acc n; simp
  | cons x xs ih =>
    intro acc n
    by_cases hx : x.url ∈ eu
    · simp [mode1Step, hx, ih]
    · simp [mode1Step, hx, ih ((acc ++ [x])) (n + 1)]
      omega

/-- C1: in an incremental-mode merge the output is exactly the
harvested records whose url is absent from the persisted collection's
url set, in their harvested order, followed by the persisted records in
their original order; `add_count` is the number of those new records,
and taking/dropping `add_count` recovers the two parts. -/
theorem mode1Merge_spec (newItems existing : List Record) :
    (mode1Merge newItems existing).1 =
        newItems.filter (fun it => it.url ∉ urls existing) ++ existing
    ∧ (mode1Merge newItems existing).2 =
        (newItems.filter (fun it => it.url ∉ urls existing)).length
    ∧ ((mode1Merge newItems existing).1).take
        (mode1Merge newItems existing).2 =
        newItems.filter (fun it => it.url ∉ urls existing)
    ∧ ((mode1Merge newItems existing).1).drop
        (mode1Merge newItems existing).2 = existing := by
  have h := foldl_mode1Step (urls existing) newItems [] 0
  unfold mode1Merge
  rw [h]
  refine ⟨by simp, by simp, ?_, ?_⟩
  · simp [List.take_left]
  · simp [List.drop_left]

/-- C6: when every harvested url is already present in the persisted
collection, the incremental run performs no write and the file system —
in particular the persisted file's contents — is unchanged. -/
theorem mode1Run_noop (fs : FS) (path : String) (ser : List Record → String)
    (newItems existing : List Record)
    (h : ∀ r ∈ newItems, r.url ∈ urls existing) :
    mode1Run fs path ser newItems existing = fs := by
  have hf : newItems.filter (fun it => it.url ∉ urls existing) = [] := by
    rw [List.filter_eq_nil_iff]
    intro a ha
    simpa using h a ha
  have hm := (mode1Merge_spec newItems existing).2.1
  unfold mode1Run
  simp only [hm, hf]
  simp

/-- Urls distribute over appended collections. -/
theorem urls_append (l1 l2 : List Record) :
    urls (l1 ++ l2) = urls l1 ++ urls l2 := by
  simp [urls]

/-- The urls of an accumulation step stay duplicate-free. -/
theorem dedup_foldl_nodup :
    ∀ (s acc : List Record), (urls acc).Nodup →
      (urls (s.foldl accumStep acc)).Nodup := by
  intro s
  induction s with
  | nil => intro acc h; simpa using h
  | cons x xs ih =>
    intro acc h
    by_cases hx : x.url ∈ urls acc
    · simpa [accumStep, hx] using ih acc h
    · have h' : (urls (acc ++ [x])).Nodup := by
        rw [urls_append, List.nodup_append]
        refine ⟨h, List.nodup_singleton _, fun a ha hb => ?_⟩
        have : a = x.url := by simpa [urls] using hb
        exact hx (this ▸ ha)
      simpa [accumStep, hx] using ih (acc ++ [x]) h'

/-- The urls present after the accumulation loop are exactly those of
the initial accumulator together with those of the stream. -/
theorem dedup_foldl_mem_urls :
    ∀ (s acc : List Record) (u : String),
      u ∈ urls (s.foldl accumStep acc) ↔ u ∈ urls acc ∨ u ∈ urls s := by
  intro s
  induction s with
  | nil => intro acc u; simp [urls]
  | cons x xs ih =>
    intro acc u
    have hcons : urls (x :: xs) = x.url :: urls xs := by simp [urls]
    by_cases hx : x.url ∈ urls acc
    · simp only [List.foldl_cons, accumStep, hx, if_pos]
      rw [ih acc u, hcons]
      simp only [List.mem_cons]
      constructor
      · rintro (h | h)
        · exact Or.inl h
        · exact Or.inr (Or.inr h)
      · rintro (h | h | h)
        · exact Or.inl h
        · exact Or.inl (h ▸ hx)
        · exact Or.inr h
    · simp only [List.foldl_cons, accumStep, hx, if_neg, not_false_iff]
      rw [ih (acc ++ [x]) u, hcons, urls_append]
      have hsing : urls [x] = [x.url] := by simp [urls]
      rw [hsing]
      simp only [List.mem_append, List.mem_cons, List.mem_singleton,
        List.not_mem_nil, or_false]
      tauto

/-- The accumulation loop's output is a subsequence of accumulator
followed by stream: records are kept in arrival order. -/
theorem dedup_foldl_sublist :
    ∀ (s acc : List Record),
      List.Sublist (s.foldl accumStep acc) (acc ++ s) := by
  intro s
  induction s with
  | nil => intro acc; simp
  | cons x xs ih =>
    intro acc
    by_cases hx : x.url ∈ urls acc
    · simp only [List.foldl_cons, accumStep, hx, if_pos]
      exact (ih acc).trans
        (List.Sublist.append_left (List.sublist_cons_self x xs) acc)
    · simp only [List.foldl_cons, accumStep, hx, if_neg, not_false_iff]
      have := ih (acc ++ [x])
      simpa [List.append_assoc] using this

/-- Every record kept by the accumulation loop that was not already in
the accumulator is the first occurrence of its url in the stream: it
splits the stream as `l1 ++ r :: l2` with its url absent from `l1` (and
from the accumulator). -/
theorem dedup_foldl_first_occ :
    ∀ (s acc : List Record), ∀ r ∈ s.foldl accumStep acc,
      r ∈ acc ∨ ∃ l1 l2, s = l1 ++ r :: l2 ∧ r.url ∉ urls l1 ∧
        r.url ∉ urls acc := by
  intro s
  induction s with
  | nil => intro acc r hr; exact Or.inl (by simpa using hr)
  | cons x xs ih =>
    intro acc r hr
    by_cases hx : x.url ∈ urls acc
    · simp only [List.foldl_cons, accumStep, hx, if_pos] at hr
      rcases ih acc r hr with h | ⟨l1, l2, he, hn1, hn2⟩
      · exact Or.inl h
      · refine Or.inr ⟨x :: l1, l2, by simp [he], ?_, hn2⟩
        simp [urls] at hn1 ⊢
        exact ⟨fun hxr => hn2 (hxr ▸ hx), hn1⟩
    · simp only [List.foldl_cons, accumStep, hx, if_neg, not_false_iff] at hr
      rcases ih (acc ++ [x]) r hr with h | ⟨l1, l2, he, hn1, hn2⟩
      · rcases List.mem_append.mp h with h | h
        · exact Or.inl h
        · have hrx : r = x := by simpa using h
          subst hrx
          exact Or.inr ⟨[], xs, rfl, by simp [urls], hx⟩
      · have hne : r.url ≠ x.url := fun he' =>
          hn2 (by rw [urls_append]
                  exact List.mem_append_right _ (by simp [urls, he']))
        have hacc : r.url ∉ urls acc := fun hm =>
          hn2 (by rw [urls_append]; exact List.mem_append_left _ hm)
        refine Or.inr ⟨x :: l1, l2, by simp [he], ?_, hacc⟩
        simp [urls] at hn1 ⊢
        exact ⟨hne, hn1⟩

/-- Head unfolding of the lexicographic comparison. -/
theorem leSeq_cons_iff (x y : Char) (xs ys : List Char) :
    leSeq (x :: xs) (y :: ys) = true ↔
      x.toNat < y.toNat ∨ (x.toNat = y.toNat ∧ leSeq xs ys = true) := by
  by_cases h1 : x.toNat < y.toNat
  · simp [leSeq, h1]
  · by_cases h2 : y.toNat < x.toNat
    · simp [leSeq, h1, h2]
      omega
    · simp [leSeq, h1, h2]
      omega

/-- Reflexivity of the lexicographic comparison. -/
theorem leSeq_refl : ∀ l : List Char, leSeq l l = true := by
  intro l
  induction l with
  | nil => rfl
  | cons x xs ih => rw [leSeq_cons_iff]; exact Or.inr ⟨rfl, ih⟩

/-- Totality of the lexicographic comparison. -/
theorem leSeq_total : ∀ a b : List Char, leSeq a b || leSeq b a := by
  intro a
  induction a with
  | nil => intro b; simp [leSeq]
  | cons x xs ih =>
    intro b
    cases b with
    | nil => simp [leSeq]
    | cons y ys =>
      rcases Nat.lt_trichotomy x.toNat y.toNat with h | h | h
      · simp only [Bool.or_eq_true, leSeq_cons_iff]
        exact Or.inl (Or.inl h)
      · have := ih ys
        simp only [Bool.or_eq_true, leSeq_cons_iff] at this ⊢
        rcases this with h1 | h1
        · exact Or.inl (Or.inr ⟨h, h1⟩)
        · exact Or.inr (Or.inr ⟨h.symm, h1⟩)
      · simp only [Bool.or_eq_true, leSeq_cons_iff]
        exact Or.inr (Or.inl h)

/-- Transitivity of the lexicographic comparison. -/
theorem leSeq_trans : ∀ a b c : List Char,
    leSeq a b = true → leSeq b c = true → leSeq a c = true := by
  intro a
  induction a with
  | nil => intro b c _ _; rfl
  | cons x xs ih =>
    intro b c h1 h2
    cases b with
    | nil => simp [leSeq] at h1
    | cons y ys =>
      cases c with
      | nil => simp [leSeq] at h2
      | cons z zs =>
        rw [leSeq_cons_iff] at h1 h2 ⊢
        rcases h1 with h1 | ⟨h1e, h1r⟩
        · rcases h2 with h2 | ⟨h2e, _⟩
          · exact Or.inl (Nat.lt_trans h1 h2)
          · exact Or.inl (h2e ▸ h1)
        · rcases h2 with h2 | ⟨h2e, h2r⟩
          · exact Or.inl (h1e ▸ h2)
          · exact Or.inr ⟨h1e.trans h2e, ih ys zs h1r h2r⟩

/-- Transitivity of the descending-`published` comparator. -/
theorem pubGE_trans (a b c : Record) :
    pubGE a b → pubGE b c → pubGE a c := by
  intro h1 h2
  exact leSeq_trans _ _ _ h2 h1

/-- Totality of the descending-`published` comparator. -/
theorem pubGE_total (a b : Record) : pubGE a b || pubGE b a :=
  leSeq_total b.published.data a.published.data

/-- Stability of the Python sort: for any fixed `published` key the
records carrying that key appear in the sorted output exactly as they
appeared in the input. -/
theorem mergeSort_filter_published (l : List Record) (k : String) :
    (l.mergeSort pubGE).filter (fun r => r.published = k) =
      l.filter (fun r => r.published = k) := by
  set p : Record → Bool := fun r => decide (r.published = k) with hp
  have hsub : List.Sublist (l.filter p) l := List.filter_sublist l
  have hpw : (l.filter p).Pairwise (fun a b => pubGE a b = true) := by
    apply List.pairwise_of_forall_mem_list
    intro a ha b hb
    have ha' : a.published = k := by simpa [hp] using (List.of_mem_filter ha)
    have hb' : b.published = k := by simpa [hp] using (List.of_mem_filter hb)
    simp [pubGE, pyLE, ha', hb', leSeq_refl]
  have hsub2 : List.Sublist (l.filter p) (l.mergeSort pubGE) :=
    List.sublist_mergeSort pubGE_trans pubGE_total hpw hsub
  have hsub3 : List.Sublist (l.filter p) ((l.mergeSort pubGE).filter p) := by
    have := List.Sublist.filter p hsub2
    rwa [List.filter_filter, show (fun a => p a && p a) = p from by
      funext a; cases p a <;> rfl] at this
  have hlen : ((l.mergeSort pubGE).filter p).length = (l.filter p).length := by
    rw [← List.countP_eq_length_filter, ← List.countP_eq_length_filter]
    exact (List.mergeSort_perm l pubGE).countP_eq p
  exact (hsub3.eq_of_length hlen.symm).symm

/-- C2: the accumulated harvest collection keeps only first occurrences
per url — its url sequence is duplicate-free, its size is the number of
distinct urls seen, and every kept record heads a split of the stream
whose prefix avoids its url while every stream url is represented — and
the harvested output is a permutation of that collection, pairwise
non-increasing in `published`, with ties kept in pre-existing order. -/
theorem harvest_spec (streams : List (List Record)) :
    (urls (dedupByUrl streams.flatten)).Nodup
    ∧ (dedupByUrl streams.flatten).length =
        (urls streams.flatten).toFinset.card
    ∧ (∀ r ∈ dedupByUrl streams.flatten,
        ∃ l1 l2, streams.flatten = l1 ++ r :: l2 ∧ r.url ∉ urls l1)
    ∧ (∀ r ∈ streams.flatten, r.url ∈ urls (dedupByUrl streams.flatten))
    ∧ List.Perm (harvest streams) (dedupByUrl streams.flatten)
    ∧ (harvest streams).Pairwise (fun a b => pubGE a b = true)
    ∧ (∀ k, (harvest streams).filter (fun r => r.published = k) =
        (dedupByUrl streams.flatten).filter (fun r => r.published = k)) := by
  set s := streams.flatten with hs
  refine ⟨dedup_foldl_nodup s [] (by simp [urls]), ?_, ?_, ?_, ?_, ?_, ?_⟩
  · have hnd := dedup_foldl_nodup s [] (by simp [urls])
    have hset : (urls (dedupByUrl s)).toFinset = (urls s).toFinset := by
      ext u
      simp only [List.mem_toFinset]
      have := dedup_foldl_mem_urls s [] u
      simp [urls, dedupByUrl] at this ⊢
      tauto
    calc (dedupByUrl s).length = (urls (dedupByUrl s)).length := by
          simp [urls]
      _ = (urls (dedupByUrl s)).toFinset.card :=
          (List.toFinset_card_of_nodup hnd).symm
      _ = (urls s).toFinset.card := by rw [hset]
  · intro r hr
    rcases dedup_foldl_first_occ s [] r hr with h | ⟨l1, l2, he, hn1, _⟩
    · simp at h
    · exact ⟨l1, l2, he, hn1⟩
  · intro r hr
    have h2 := dedup_foldl_mem_urls s [] r.url
    show r.url ∈ urls (s.foldl accumStep [])
    rw [h2]
    exact Or.inr (by simp [urls]; exact ⟨r, hr, rfl⟩)
  · exact List.mergeSort_perm _ pubGE
  · exact List.sorted_mergeSort pubGE_trans pubGE_total (dedupByUrl s)
  · intro k
    exact mergeSort_filter_published (dedupByUrl s) k

/-- A concrete record used for witnesses and counterexamples. -/
def recX : Record :=
  { title := "X", url := "http://arxiv.org/abs/2401.00001v1",
    abstract := "a", published := "2024-01-01T00:00:00Z" }

/-- Python's default whitespace test for `str.strip()` (the responses
handled here are ASCII, where this is exact). -/
def isSpaceChar (c : Char) : Bool :=
  c == ' ' || c == '\t' || c == '\n' || c == '\r' ||
    c == Char.ofNat 11 || c == Char.ofNat 12

/-- Python's `str.strip()` with no argument: leading and trailing
whitespace removed. -/
def pyStrip (s : String) : String :=
  ⟨((s.data.dropWhile isSpaceChar).reverse.dropWhile isSpaceChar).reverse⟩

/-- Python's `str.lower()` (exact on the ASCII data involved here). -/
def pyLower (s : String) : String :=
  ⟨s.data.map Char.toLower⟩

/-- Char-list prefix test, realising Python's `str.startswith`. -/
def startsSeq : List Char → List Char → Bool
  | [], _ => true
  | _ :: _, [] => false
  | a :: as, b :: bs => a == b && startsSeq as bs

/-- Python's `s.startswith(pre)`. -/
def pyStartsWith (s pre : String) : Bool :=
  startsSeq pre.data s.data

/-- Python's `s.split(',')` over the character list. -/
def splitCommaAux : List Char → List Char → List (List Char)
  | [], cur => [cur.reverse]
  | c :: cs, cur =>
      if c == ',' then cur.reverse :: splitCommaAux cs []
      else splitCommaAux cs (c :: cur)

/-- Python's `s.split(',')`: the comma-separated pieces, empty pieces
kept. -/
def splitComma (s : String) : List String :=
  (splitCommaAux s.data []).map String.mk

/-- Lines 112-123 and 135-144 of `classify_papers.py`: `query_model`
returns the response content stripped and lowercased, and
`classify_item` reduces it to a boolean with `result.startswith("t")`. -/
def classifyLabel (resp : String) : Bool :=
  pyStartsWith (pyLower (pyStrip resp)) "t"

/-- Modelled from the claim's words, for comparison with
`classifyLabel`: a label that is true iff the response text, compared
case-insensitively, starts with the token "true". -/
def claimLabel (resp : String) : Bool :=
  pyStartsWith (pyLower (pyStrip resp)) "true"

/-- The per-record classification operation (`classify_item`, lines
135-144): when not overwriting and the field is present, the record is
returned unchanged; otherwise the external call's response is parsed and
stored. `call` abstracts `query_model`; its `Except.error` stands for an
exception escaping after `MAX_RETRY` attempts. -/
def classifyItem (call : Record → Except Unit String) (overwrite : Bool)
    (r : Record) : Except Unit Record :=
  if ¬overwrite ∧ r.ai_for_hw ≠ none then Except.ok r
  else
    match call r with
    | Except.ok resp =>
        Except.ok { r with ai_for_hw := some (classifyLabel resp) }
    | Except.error e => Except.error e

/-- Lines 252-262 of `classify_papers.py` (`process_wrapper`): a failure
of `classify_item` is caught, a diagnostic is printed and the record is
left as it was; the wrapper itself always resolves. Returns the
resulting record together with whether a diagnostic was emitted. -/
def classifyWrapper (call : Record → Except Unit String) (overwrite : Bool)
    (r : Record) : Record × Bool :=
  match classifyItem call overwrite r with
  | Except.ok r' => (r', false)
  | Except.error _ => (r, true)

/-- Lines 227-232 and 264-269 of `classify_papers.py`, in the branch
without a diff file: `items_to_process` filters `data`, the selected
records are mutated in place (so the selected positions of
`final_data = data` hold the processed records), and then
`final_data.extend(items_to_process)` appends those same processed
records a second time. -/
def classifyFinalNoDiff (call : Record → Except Unit String)
    (overwrite : Bool) (data : List Record) : List Record :=
  let sel : Record → Bool := fun r => overwrite || r.ai_for_hw == none
  let toProc := data.filter sel
  if toProc.isEmpty then data
  else
    (data.map (fun r =>
        if sel r then (classifyWrapper call overwrite r).1 else r))
      ++ toProc.map (fun r => (classifyWrapper call overwrite r).1)

/-- The fixed tag vocabulary `VALID_TAGS` of `tag_papers.py`. -/
def VALID_TAGS : List String :=
  ["Verification", "Synthesis", "P&R", "Analog Design",
   "System-level Optimization", "Code Generation", "Security", "Testing",
   "Other"]

/-- Python's `needle in hay` on strings: contiguous-substring test. -/
def hasSeq (n : List Char) : List Char → Bool
  | [] => n.isEmpty
  | c :: hs => startsSeq n (c :: hs) || hasSeq n hs

/-- Substring containment on strings (`needle in hay` in Python). -/
def substrB (needle hay : String) : Bool :=
  hasSeq needle.data hay.data

/-- The inner vocabulary scan step of `tag_item` (lines 144-147): one
vocabulary entry is appended when it is contained (case-insensitively)
in the fragment and not yet collected. -/
def scanStep (raw : String) (fd : List String) (v : String) : List String :=
  if substrB (pyLower v) (pyLower raw) && !(fd.contains v) then fd ++ [v]
  else fd

/-- The vocabulary scan of one comma fragment (lines 145-147). -/
def tagScanFragment (found : List String) (raw : String) : List String :=
  VALID_TAGS.foldl (scanStep raw) found

/-- Lines 141-152 of `tag_papers.py` (`tag_item`): the response is split
on commas, the fragments are stripped, each fragment is scanned against
the vocabulary, and `["Other"]` is the fallback when nothing matched. -/
def tagParse (resp : String) : List String :=
  let raws := (splitComma resp).map pyStrip
  let found := raws.foldl tagScanFragment []
  if found.isEmpty then ["Other"] else found

/-- Modelled from the claim's words, for comparison with `tagParse`:
the vocabulary entries matching at least one fragment, listed in
vocabulary-scan order, with the same "Other" fallback. -/
def claimTagParse (resp : String) : List String :=
  let raws := (splitComma resp).map pyStrip
  let found := VALID_TAGS.filter
    (fun v => raws.any (fun raw => substrB (pyLower v) (pyLower raw)))
  if found.isEmpty then ["Other"] else found

/-- The per-record tagging operation (`tag_item`, lines 133-152). -/
def tagItem (call : Record → Except Unit String) (overwrite : Bool)
    (r : Record) : Except Unit Record :=
  if ¬overwrite ∧ r.tags ≠ none then Except.ok r
  else
    match call r with
    | Except.ok resp => Except.ok { r with tags := some (tagParse resp) }
    | Except.error e => Except.error e

/-- Lines 231-242 of `tag_papers.py` (`process_wrapper`): `tag_item` is
called with `overwrite=True`; an exception is caught, a diagnostic is
printed and the record's tags are set to the sentinel `["Error"]`.
Returns the record together with whether a diagnostic was emitted. -/
def tagWrapper (call : Record → Except Unit String) (r : Record) :
    Record × Bool :=
  match tagItem call true r with
  | Except.ok r' => (r', false)
  | Except.error _ => ({ r with tags := some ["Error"] }, true)

/-- Lines 186-252 of `tag_papers.py` without `--overwrite`: the input
records whose (non-empty) url is not among the existing output's urls
are tagged, appended to the existing collection, and the whole list is
stable-sorted by `published` descending before the save. -/
def tagFinal (call : Record → Except Unit String)
    (existingPapers allPapers : List Record) : List Record :=
  let existingUrls := urls (existingPapers.filter (fun r => r.url ≠ ""))
  let toProc := allPapers.filter (fun r => r.url ∉ existingUrls)
  let fd := if toProc.isEmpty then existingPapers
            else existingPapers ++ toProc.map (fun r => (tagWrapper call r).1)
  fd.mergeSort pubGE

/-- Lines 54-71 of `classify_papers.py` (`safe_json_write`): the
serialized data is written to the sibling path `path + ".tmp"` and the
temporary file is then renamed onto `path`. `writeOk` says whether the
temporary write succeeds; on failure the (partial) temporary file is
removed and the failure propagates — the returned flag is `false` for
the re-raised exception. -/
def safeJsonWrite (fs : FS) (path content : String) (writeOk : Bool) :
    FS × Bool :=
  let temp := path ++ ".tmp"
  if writeOk then
    ((((fs.set temp (some content)).set temp none).set path (some content)),
      true)
  else (fs.set temp none, false)

/-- The file system seen when a process running `safe_json_write` is
killed after the temporary write but before the rename. -/
def safeJsonWriteInterrupted (fs : FS) (path content : String) : FS :=
  fs.set (path ++ ".tmp") (some content)

/-- A direct save — `save_json` in `arxiv_manager_min.py` (lines
142-145) and the final `open(args.output, "w")` write of
`tag_papers.py` (lines 254-255): the data is written straight to the
final path, with no temporary file and no rename. -/
def directWrite (fs : FS) (path content : String) : FS :=
  fs.set path (some content)

/-- The file system seen when a direct save is killed mid-write, having
written only a prefix `part` of the data. -/
def directWriteInterrupted (fs : FS) (path part : String) : FS :=
  fs.set path (some part)

/-- The vocabulary scan of one fragment preserves duplicate-freedom of
the collected tag list. -/
theorem scan_foldl_nodup (raw : String) :
    ∀ (vocab fd : List String), fd.Nodup →
      (vocab.foldl (scanStep raw) fd).Nodup := by
  intro vocab
  induction vocab with
  | nil => intro fd h; exact h
  | cons v vs ih =>
    intro fd h
    simp only [List.foldl_cons]
    apply ih
    unfold scanStep
    by_cases hc : (substrB (pyLower v) (pyLower raw) && !(fd.contains v)) = true
    · rw [if_pos hc]
      have hv : v ∉ fd := by
        have := (Bool.and_eq_true _ _).mp hc
        simpa using this.2
      rw [List.nodup_append]
      exact ⟨h, List.nodup_singleton _, fun a ha hb => by
        have : a = v := by simpa using hb
        exact hv (this ▸ ha)⟩
    · rw [if_neg hc]; exact h

/-- Membership after the vocabulary scan of one fragment: the collected
entries plus every vocabulary entry contained in the fragment. -/
theorem scan_foldl_mem (raw : String) :
    ∀ (vocab fd : List String) (u : String),
      u ∈ vocab.foldl (scanStep raw) fd ↔
        u ∈ fd ∨ (u ∈ vocab ∧ substrB (pyLower u) (pyLower raw) = true) := by
  intro vocab
  induction vocab with
  | nil => intro fd u; simp
  | cons v vs ih =>
    intro fd u
    simp only [List.foldl_cons]
    rw [ih]
    unfold scanStep
    by_cases hs : substrB (pyLower v) (pyLower raw) = true
    · by_cases hm : v ∈ fd
      · have hc : (substrB (pyLower v) (pyLower raw) && !(fd.contains v)) = false := by
          simp [hs, hm]
        rw [hc]
        simp only [Bool.false_eq_true, if_false, List.mem_cons]
        constructor
        · rintro (h | ⟨h1, h2⟩)
          · exact Or.inl h
          · exact Or.inr ⟨Or.inr h1, h2⟩
        · rintro (h | ⟨h1 | h1, h2⟩)
          · exact Or.inl h
          · exact Or.inl (h1 ▸ hm)
          · exact Or.inr ⟨h1, h2⟩
      · have hc : (substrB (pyLower v) (pyLower raw) && !(fd.contains v)) = true := by
          simp [hs, hm]
        rw [hc]
        simp only [if_true, List.mem_append, List.mem_singleton, List.mem_cons,
          List.not_mem_nil, or_false]
        constructor
        · rintro ((h | h) | ⟨h1, h2⟩)
          · exact Or.inl h
          · exact Or.inr ⟨Or.inl h, h ▸ hs⟩
          · exact Or.inr ⟨Or.inr h1, h2⟩
        · rintro (h | ⟨h1 | h1, h2⟩)
          · exact Or.inl (Or.inl h)
          · exact Or.inl (Or.inr h1)
          · exact Or.inr ⟨h1, h2⟩
    · have hc : (substrB (pyLower v) (pyLower raw) && !(fd.contains v)) = false := by
        simp [hs]
      rw [hc]
      simp only [Bool.false_eq_true, if_false, List.mem_cons]
      constructor
      · rintro (h | ⟨h1, h2⟩)
        · exact Or.inl h
        · exact Or.inr ⟨Or.inr h1, h2⟩
      · rintro (h | ⟨h1 | h1, h2⟩)
        · exact Or.inl h
        · exact absurd (h1 ▸ h2) hs
        · exact Or.inr ⟨h1, h2⟩

/-- The whole fragment loop preserves duplicate-freedom. -/
theorem tagscan_foldl_nodup :
    ∀ (raws fd : List String), fd.Nodup →
      (raws.foldl tagScanFragment fd).Nodup := by
  intro raws
  induction raws with
  | nil => intro fd h; exact h
  | cons raw rest ih =>
    intro fd h
    simp only [List.foldl_cons]
    exact ih _ (scan_foldl_nodup raw VALID_TAGS fd h)

/-- Membership after the whole fragment loop: the initial entries plus
every vocabulary entry contained in at least one fragment. -/
theorem tagscan_foldl_mem :
    ∀ (raws fd : List String) (u : String),
      u ∈ raws.foldl tagScanFragment fd ↔
        u ∈ fd ∨ (u ∈ VALID_TAGS ∧
          ∃ raw ∈ raws, substrB (pyLower u) (pyLower raw) = true) := by
  intro raws
  induction raws with
  | nil => intro fd u; simp
  | cons raw rest ih =>
    intro fd u
    simp only [List.foldl_cons]
    rw [ih, tagScanFragment, scan_foldl_mem]
    simp only [List.mem_cons]
    constructor
    · rintro ((h | ⟨h1, h2⟩) | ⟨h1, raw', hr, h2⟩)
      · exact Or.inl h
      · exact Or.inr ⟨h1, raw, Or.inl rfl, h2⟩
      · exact Or.inr ⟨h1, raw', Or.inr hr, h2⟩
    · rintro (h | ⟨h1, raw', (hr | hr), h2⟩)
      · exact Or.inl (Or.inl h)
      · exact Or.inl (Or.inr ⟨h1, hr ▸ h2⟩)
      · exact Or.inr ⟨h1, raw', hr, h2⟩

/-- The parsed tag list is always duplicate-free. -/
theorem tagParse_nodup (resp : String) : (tagParse resp).Nodup := by
  unfold tagParse
  by_cases h : (((splitComma resp).map pyStrip).foldl tagScanFragment []).isEmpty
  · simp [h]
  · simp only [h, if_false, Bool.false_eq_true]
    exact tagscan_foldl_nodup _ [] List.nodup_nil

/-- The parsed tag list is never empty. -/
theorem tagParse_ne_nil (resp : String) : tagParse resp ≠ [] := by
  unfold tagParse
  by_cases h : (((splitComma resp).map pyStrip).foldl tagScanFragment []).isEmpty
  · simp [h]
  · simp only [h, if_false, Bool.false_eq_true]
    intro he
    rw [he] at h
    simp at h

/-- Every parsed tag is a vocabulary entry. -/
theorem tagParse_subset (resp : String) :
    ∀ v ∈ tagParse resp, v ∈ VALID_TAGS := by
  unfold tagParse
  intro v hv
  by_cases h : (((splitComma resp).map pyStrip).foldl tagScanFragment []).isEmpty
  · simp [h] at hv
    rw [hv]
    decide
  · simp only [h, if_false, Bool.false_eq_true] at hv
    rcases (tagscan_foldl_mem _ [] v).mp hv with h1 | ⟨h1, _⟩
    · simp at h1
    · exact h1

/-- When no vocabulary entry is contained in any fragment, the fallback
tag list `["Other"]` results. -/
theorem tagParse_eq_other (resp : String)
    (h : ∀ v ∈ VALID_TAGS, ∀ raw ∈ (splitComma resp).map pyStrip,
      substrB (pyLower v) (pyLower raw) = false) :
    tagParse resp = ["Other"] := by
  unfold tagParse
  have hempty : ((splitComma resp).map pyStrip).foldl tagScanFragment [] = [] := by
    by_contra hne
    rcases List.exists_mem_of_ne_nil _ hne with ⟨u, hu⟩
    rcases (tagscan_foldl_mem _ [] u).mp hu with h1 | ⟨h1, raw, hr, h2⟩
    · simp at h1
    · rw [h u h1 raw hr] at h2
      exact absurd h2 (by simp)
  simp [hempty]

/-- When some vocabulary entry is contained in some fragment, the parsed
tag list holds exactly the vocabulary entries contained in at least one
fragment. -/
theorem tagParse_mem_iff (resp : String)
    (h : ∃ v ∈ VALID_TAGS, ∃ raw ∈ (splitComma resp).map pyStrip,
      substrB (pyLower v) (pyLower raw) = true) :
    ∀ v, v ∈ tagParse resp ↔ v ∈ VALID_TAGS ∧
      ∃ raw ∈ (splitComma resp).map pyStrip,
        substrB (pyLower v) (pyLower raw) = true := by
  intro v
  unfold tagParse
  rcases h with ⟨w, hw, raw, hraw, hsubw⟩
  have hne : ((splitComma resp).map pyStrip).foldl tagScanFragment [] ≠ [] := by
    intro he
    have := (tagscan_foldl_mem _ [] w).mpr (Or.inr ⟨hw, raw, hraw, hsubw⟩)
    rw [he] at this
    simp at this
  have hie : (((splitComma resp).map pyStrip).foldl tagScanFragment []).isEmpty = false := by
    rw [Bool.eq_false_iff]
    intro hie
    exact hne (List.isEmpty_iff.mp hie)
  simp only [hie, if_false, Bool.false_eq_true]
  rw [tagscan_foldl_mem]
  simp

/-- Witness for C6: with the single harvested record already persisted,
the hypothesis holds and the run leaves the file system unchanged. -/
theorem mode1Run_noop_witness :
    (∀ r ∈ [recX], r.url ∈ urls [recX])
    ∧ mode1Run (fun _ => none) "out.json" (fun _ => "") [recX] [recX] =
        (fun _ => none) :=
  ⟨by decide, mode1Run_noop (fun _ => none) "out.json" (fun _ => "")
      [recX] [recX] (by decide)⟩

/-- Witness for C2: instantiating the harvest specification at a
one-query, one-record stream yields duplicate-free urls. -/
theorem harvest_spec_witness :
    (urls (dedupByUrl ([[recX]] : List (List Record)).flatten)).Nodup :=
  (harvest_spec [[recX]]).1

/-- A newer concrete record (published 2024-05-01). -/
def recX5 : Record :=
  { title := "X5", url := "http://arxiv.org/abs/2405.00005v1",
    abstract := "a", published := "2024-05-01T00:00:00Z" }

/-- An older concrete record (published 2024-01-01) with a distinct url. -/
def recY1 : Record :=
  { title := "Y1", url := "http://arxiv.org/abs/2401.00009v1",
    abstract := "a", published := "2024-01-01T00:00:00Z" }

/-- C3 (code bug): running the classification stage without a diff file
on a single unlabeled record executes
`final_data.extend(items_to_process)` with `final_data` being the very
list the items already belong to, so the saved collection holds the
record twice and its urls are not pairwise distinct. -/
theorem classify_extend_duplicates_urls :
    ¬ (urls (classifyFinalNoDiff (fun _ => Except.ok "true") false
        [recX])).Nodup := by
  decide

/-- C4 counterexample: an incremental merge of one freshly harvested
older record against a persisted newer record produces a saved
collection whose adjacent pair strictly increases in `published`,
violating the claimed non-increasing order invariant. -/
theorem mode1Merge_order_violated :
    ¬ List.Chain' (fun a b : Record => pubGE a b = true)
        (mode1Merge [recY1] [recX5]).1 := by
  have hm : (mode1Merge [recY1] [recX5]).1 = [recY1, recX5] := by decide
  rw [hm, List.chain'_cons]
  rintro ⟨h, -⟩
  exact absurd h (by decide)

/-- C4 amended: the full-rebuild harvest output and the tagged output
are non-increasing in `published` on all adjacent pairs; the
incremental merge output and the classified/filtered outputs are not
covered (the former puts new records first, the latter append processed
records). -/
theorem saved_outputs_sorted (streams : List (List Record))
    (call : Record → Except Unit String)
    (existingPapers allPapers : List Record) :
    List.Chain' (fun a b : Record => pubGE a b = true) (harvest streams)
    ∧ List.Chain' (fun a b : Record => pubGE a b = true)
        (tagFinal call existingPapers allPapers) :=
  ⟨(List.sorted_mergeSort pubGE_trans pubGE_total _).chain',
   (List.sorted_mergeSort pubGE_trans pubGE_total _).chain'⟩

/-- A concrete starting file system holding a previously persisted
tagged collection. -/
def fs0 : FS := FS.set (fun _ => none) "tagged.json" (some "[old]")

/-- C5 counterexample: the tagging stage's persistent save (and
likewise the harvester's `save_json`) writes the final path directly —
no sibling temporary, no rename — so interrupting it mid-write replaces
the previously persisted contents with the partial data instead of
leaving them intact. -/
theorem tag_save_not_atomic :
    directWriteInterrupted fs0 "tagged.json" "[" "tagged.json" = some "["
    ∧ fs0 "tagged.json" = some "[old]"
    ∧ directWriteInterrupted fs0 "tagged.json" "[" "tagged.json" ≠
        fs0 "tagged.json" := by
  refine ⟨by decide, by decide, by decide⟩

/-- C5 amended: `safe_json_write` — through which the classification
stage saves both its labeled and its filtered output — is atomic: an
interruption between the temporary write and the rename leaves the
final path unchanged; a failing temporary write removes the temporary
file, leaves the final path unchanged and propagates the failure; a
successful run installs the new contents. The harvest and tagging
stages save with a direct write instead. -/
theorem safeJsonWrite_atomic (fs : FS) (path content : String) :
    safeJsonWriteInterrupted fs path content path = fs path
    ∧ (safeJsonWrite fs path content true).1 path = some content
    ∧ (safeJsonWrite fs path content false).1 path = fs path
    ∧ (safeJsonWrite fs path content false).1 (path ++ ".tmp") = none
    ∧ (safeJsonWrite fs path content false).2 = false := by
  have h4 : (".tmp" : String).length = 4 := by decide
  have hne : path ≠ path ++ ".tmp" := by
    intro h
    have hl : path.length = (path ++ ".tmp").length := by rw [← h]
    rw [String.length_append, h4] at hl
    omega
  refine ⟨?_, ?_, ?_, ?_, rfl⟩
  · simp [safeJsonWriteInterrupted, FS.set, hne]
  · simp [safeJsonWrite, FS.set]
  · simp [safeJsonWrite, FS.set, hne]
  · simp [safeJsonWrite, FS.set]

/-- C7: per-record failure containment of the annotation wrappers: the
batch map resolves every record (one output per input); a record whose
external call fails permanently is left without `ai_for_hw`
(classification) or assigned the sentinel `["Error"]` (tagging), in
both cases with a diagnostic emitted; a record whose call succeeds is
annotated from the parsed response with no diagnostic; and the result
is always a fully resolved list regardless of which calls fail. -/
theorem wrapper_failure_containment
    (call : Record → Except Unit String) (items : List Record) :
    (items.map (fun r => (classifyWrapper call false r).1)).length =
        items.length
    ∧ (items.map (fun r => (tagWrapper call r).1)).length = items.length
    ∧ (∀ r ∈ items, call r = Except.error () → r.ai_for_hw = none →
        classifyWrapper call false r = (r, true))
    ∧ (∀ r ∈ items, ∀ resp, call r = Except.ok resp → r.ai_for_hw = none →
        classifyWrapper call false r =
          ({ r with ai_for_hw := some (classifyLabel resp) }, false))
    ∧ (∀ r ∈ items, call r = Except.error () →
        tagWrapper call r = ({ r with tags := some ["Error"] }, true))
    ∧ (∀ r ∈ items, ∀ resp, call r = Except.ok resp →
        tagWrapper call r = ({ r with tags := some (tagParse resp) }, false)) := by
  refine ⟨by simp, by simp, ?_, ?_, ?_, ?_⟩
  · intro r _ hc hf
    simp [classifyWrapper, classifyItem, hf, hc]
  · intro r _ resp hc hf
    simp [classifyWrapper, classifyItem, hf, hc]
  · intro r _ hc
    simp [tagWrapper, tagItem, hc]
  · intro r _ resp hc
    simp [tagWrapper, tagItem, hc]

/-- A concrete external capability failing permanently on `recX` and
answering "True." on every other record. -/
def callMixed : Record → Except Unit String :=
  fun r => if r.url = recX.url then Except.error () else Except.ok "True."

/-- Witness for C7: in a two-record batch whose first call fails
permanently, the first record is left without `ai_for_hw` / marked
`["Error"]` with a diagnostic, while the second is still annotated. -/
theorem wrapper_failure_containment_witness :
    classifyWrapper callMixed false recX = (recX, true)
    ∧ tagWrapper callMixed recX = ({ recX with tags := some ["Error"] }, true)
    ∧ classifyWrapper callMixed false recY1 =
        ({ recY1 with ai_for_hw := some true }, false) := by
  have h := wrapper_failure_containment callMixed [recX, recY1]
  refine ⟨h.2.2.1 recX (by simp) rfl rfl, h.2.2.2.2.1 recX (by simp) rfl, ?_⟩
  have h2 := h.2.2.2.1 recY1 (by simp) "True."
    (by simp [callMixed, recY1, recX]) rfl
  have hc : classifyLabel "True." = true := by decide
  rw [hc] at h2
  exact h2

/-- C8 counterexample: the response "t" is given the label true although
it does not start with the token "true" (case-insensitively), so the
claimed iff fails on it. -/
theorem classifyLabel_ne_claim :
    classifyLabel "t" = true ∧ claimLabel "t" = false := by decide

/-- C8 amended: the label is true iff the stripped, lowercased response
starts with the letter "t" — the code checks only the first letter of
the true token; in particular "True." yields true and "no" yields
false. -/
theorem classifyLabel_spec :
    (∀ resp : String,
      classifyLabel resp = true ↔
        pyStartsWith (pyLower (pyStrip resp)) "t" = true)
    ∧ classifyLabel "True." = true ∧ classifyLabel "no" = false :=
  ⟨fun _ => Iff.rfl, by decide, by decide⟩

/-- Witness for C8: the two scenario responses evaluate as stated. -/
theorem classifyLabel_spec_witness :
    classifyLabel "True." = true ∧ classifyLabel "no" = false :=
  ⟨classifyLabel_spec.2.1, classifyLabel_spec.2.2⟩

/-- C9 counterexample: for the response "Code Generation, Verification"
the code returns the tags in first-matching-fragment order, while the
claimed vocabulary-scan order would put Verification first. -/
theorem tagParse_order_ne_claim :
    tagParse "Code Generation, Verification" =
        ["Code Generation", "Verification"]
    ∧ claimTagParse "Code Generation, Verification" =
        ["Verification", "Code Generation"]
    ∧ tagParse "Code Generation, Verification" ≠
        claimTagParse "Code Generation, Verification" := by
  refine ⟨by decide, by decide, by decide⟩

/-- Closed form of the vocabulary scan of one fragment over a
duplicate-free vocabulary: the collected list is extended, in
vocabulary-scan order, by exactly the entries contained in the fragment
and not yet collected. -/
theorem scan_foldl_eq_filter (raw : String) :
    ∀ (vocab fd : List String), vocab.Nodup →
      vocab.foldl (scanStep raw) fd =
        fd ++ vocab.filter (fun v =>
          substrB (pyLower v) (pyLower raw) && !(fd.contains v)) := by
  intro vocab
  induction vocab with
  | nil => intro fd _; simp
  | cons v vs ih =>
    intro fd hnd
    have hv : v ∉ vs := (List.nodup_cons.mp hnd).1
    have hvs : vs.Nodup := (List.nodup_cons.mp hnd).2
    simp only [List.foldl_cons]
    by_cases hc : (substrB (pyLower v) (pyLower raw) && !(fd.contains v)) = true
    · have hstep : scanStep raw fd v = fd ++ [v] := by rw [scanStep, if_pos hc]
      rw [hstep, ih _ hvs]
      have hfil : vs.filter (fun u =>
            substrB (pyLower u) (pyLower raw) && !((fd ++ [v]).contains u)) =
          vs.filter (fun u =>
            substrB (pyLower u) (pyLower raw) && !(fd.contains u)) := by
        apply List.filter_congr
        intro u hu
        have hne : u ≠ v := fun h => hv (h ▸ hu)
        have hcu : ((fd ++ [v]).contains u) = (fd.contains u) := by
          rw [Bool.eq_iff_iff]
          simp only [List.contains, List.elem_eq_mem, decide_eq_true_eq,
            List.mem_append, List.mem_singleton]
          simp [hne]
        rw [hcu]
      rw [hfil, List.filter_cons, if_pos hc, List.append_assoc]
      rfl
    · have hstep : scanStep raw fd v = fd := by rw [scanStep, if_neg hc]
      rw [hstep, ih _ hvs, List.filter_cons, if_neg hc]

/-- Modelled from the amended claim's words: the tag blocks in
fragment-major order — for each fragment in turn, the vocabulary
entries (in vocabulary-scan order) contained in that fragment but in no
earlier fragment. -/
def fragBlocks : List String → List String → List String
  | [], _ => []
  | r :: rest, earlier =>
      (VALID_TAGS.filter (fun v =>
          substrB (pyLower v) (pyLower r) &&
            !(earlier.any (fun e => substrB (pyLower v) (pyLower e)))))
        ++ fragBlocks rest (earlier ++ [r])

/-- Modelled from the amended claim's words: the whole parse in
fragment-major order, with the same "Other" fallback. -/
def fragMajorTagParse (resp : String) : List String :=
  let raws := (splitComma resp).map pyStrip
  let found := fragBlocks raws []
  if found.isEmpty then ["Other"] else found

/-- The fragment loop, started from a collection holding exactly the
vocabulary entries contained in some fragment of `earlier`, appends
exactly the fragment-major blocks of the remaining fragments. -/
theorem tagscan_foldl_blocks :
    ∀ (raws earlier fd : List String),
      (∀ v, v ∈ fd ↔ v ∈ VALID_TAGS ∧
        ∃ e ∈ earlier, substrB (pyLower v) (pyLower e) = true) →
      raws.foldl tagScanFragment fd = fd ++ fragBlocks raws earlier := by
  intro raws
  induction raws with
  | nil => intro earlier fd _; simp [fragBlocks]
  | cons r rest ih =>
    intro earlier fd hfd
    have hVnd : VALID_TAGS.Nodup := by decide
    have hblk : VALID_TAGS.filter (fun v =>
          substrB (pyLower v) (pyLower r) && !(fd.contains v)) =
        VALID_TAGS.filter (fun v =>
          substrB (pyLower v) (pyLower r) &&
            !(earlier.any (fun e => substrB (pyLower v) (pyLower e)))) := by
      apply List.filter_congr
      intro v hvV
      have hcv : (fd.contains v) =
          (earlier.any (fun e => substrB (pyLower v) (pyLower e))) := by
        rw [Bool.eq_iff_iff]
        simp only [List.contains, List.elem_eq_mem, decide_eq_true_eq,
          List.any_eq_true]
        constructor
        · intro hvfd
          rcases (hfd v).mp hvfd with ⟨_, e, he, hs⟩
          exact ⟨e, he, hs⟩
        · rintro ⟨e, he, hs⟩
          exact (hfd v).mpr ⟨hvV, e, he, hs⟩
      rw [hcv]
    have hinner : tagScanFragment fd r = fd ++ VALID_TAGS.filter (fun v =>
        substrB (pyLower v) (pyLower r) &&
          !(earlier.any (fun e => substrB (pyLower v) (pyLower e)))) := by
      rw [tagScanFragment, scan_foldl_eq_filter r VALID_TAGS fd hVnd, hblk]
    have hmem : ∀ v, v ∈ fd ++ VALID_TAGS.filter (fun v =>
          substrB (pyLower v) (pyLower r) &&
            !(earlier.any (fun e => substrB (pyLower v) (pyLower e)))) ↔
        v ∈ VALID_TAGS ∧ ∃ e ∈ earlier ++ [r],
          substrB (pyLower v) (pyLower e) = true := by
      intro v
      rw [List.mem_append]
      constructor
      · rintro (hv | hv)
        · rcases (hfd v).mp hv with ⟨hV, e, he, hs⟩
          exact ⟨hV, e, List.mem_append_left _ he, hs⟩
        · rcases List.mem_filter.mp hv with ⟨hV, hcond⟩
          have hc2 := (Bool.and_eq_true _ _).mp hcond
          exact ⟨hV, r, List.mem_append_right _ (by simp), hc2.1⟩
      · rintro ⟨hV, e, he, hs⟩
        rcases List.mem_append.mp he with he | he
        · exact Or.inl ((hfd v).mpr ⟨hV, e, he, hs⟩)
        · have her : e = r := by simpa using he
          subst her
          by_cases hEarl : ∃ e' ∈ earlier,
              substrB (pyLower v) (pyLower e') = true
          · rcases hEarl with ⟨e', he', hs'⟩
            exact Or.inl ((hfd v).mpr ⟨hV, e', he', hs'⟩)
          · refine Or.inr (List.mem_filter.mpr ⟨hV, ?_⟩)
            have hany : earlier.any
                (fun e' => substrB (pyLower v) (pyLower e')) = false := by
              rw [Bool.eq_false_iff]
              intro ha
              rcases List.any_eq_true.mp ha with ⟨e', he', hs'⟩
              exact hEarl ⟨e', he', hs'⟩
            rw [Bool.and_eq_true]
            exact ⟨hs, by simp [hany]⟩
    simp only [List.foldl_cons]
    rw [hinner, ih (earlier ++ [r]) _ hmem]
    simp [fragBlocks, List.append_assoc]

/-- The code's parse is exactly the fragment-major construction: tags
appear in order of first containing fragment, entries first matched by
the same fragment in vocabulary-scan order. -/
theorem tagParse_eq_fragMajor (resp : String) :
    tagParse resp = fragMajorTagParse resp := by
  have h := tagscan_foldl_blocks ((splitComma resp).map pyStrip) [] []
    (by intro v; simp)
  rw [List.nil_append] at h
  unfold tagParse fragMajorTagParse
  simp only [h]

/-- C9 amended: the parsed tag list is duplicate-free and drawn from
the vocabulary; when no vocabulary entry is contained
(case-insensitively) in any stripped comma fragment it is exactly
`["Other"]`; otherwise its members are exactly the vocabulary entries
contained in at least one fragment — and the whole parse equals the
fragment-major construction: entries in order of first containing
fragment, those first matched by the same fragment in vocabulary-scan
order, not in global vocabulary-scan order. -/
theorem tagParse_spec (resp : String) :
    (tagParse resp).Nodup
    ∧ (∀ v ∈ tagParse resp, v ∈ VALID_TAGS)
    ∧ ((∀ v ∈ VALID_TAGS, ∀ raw ∈ (splitComma resp).map pyStrip,
          substrB (pyLower v) (pyLower raw) = false) →
        tagParse resp = ["Other"])
    ∧ ((∃ v ∈ VALID_TAGS, ∃ raw ∈ (splitComma resp).map pyStrip,
          substrB (pyLower v) (pyLower raw) = true) →
        ∀ v, v ∈ tagParse resp ↔ v ∈ VALID_TAGS ∧
          ∃ raw ∈ (splitComma resp).map pyStrip,
            substrB (pyLower v) (pyLower raw) = true)
    ∧ tagParse resp = fragMajorTagParse resp :=
  ⟨tagParse_nodup resp, tagParse_subset resp, tagParse_eq_other resp,
    tagParse_mem_iff resp, tagParse_eq_fragMajor resp⟩

/-- Witness for C9: a response made of one vocabulary word parses to a
duplicate-free list in which that word's membership matches the
containment condition, and the parse equals the fragment-major
construction. -/
theorem tagParse_spec_witness :
    (tagParse "Verification").Nodup
    ∧ ("Verification" ∈ tagParse "Verification" ↔
        "Verification" ∈ VALID_TAGS ∧
          ∃ raw ∈ (splitComma "Verification").map pyStrip,
            substrB (pyLower "Verification") (pyLower raw) = true)
    ∧ tagParse "Verification" = fragMajorTagParse "Verification" :=
  ⟨(tagParse_spec "Verification").1,
   (tagParse_spec "Verification").2.2.2.1
     ⟨"Verification", by decide, "Verification", by decide, by decide⟩
     "Verification",
   (tagParse_spec "Verification").2.2.2.2⟩

/-- C10 counterexample: nothing caps the parsed tag list at three
entries — a four-tag response yields four tags — and the failure
sentinel "Error" given by the wrapper is not a vocabulary member. -/
theorem tags_bound_violated :
    (tagParse "Verification, Synthesis, P&R, Testing").length = 4
    ∧ ((tagWrapper (fun _ => Except.error ()) recX5).1).tags =
        some ["Error"]
    ∧ "Error" ∉ VALID_TAGS := by
  refine ⟨by decide, by decide, by decide⟩

/-- C10 amended: any tags field produced by the tagging wrapper is
non-empty and duplicate-free, and is either the failure sentinel
`["Error"]` or consists solely of vocabulary entries — with length
bounded by the vocabulary size 9, not by 3. -/
theorem tagWrapper_tags_spec (call : Record → Except Unit String)
    (r : Record) (ts : List String)
    (h : ((tagWrapper call r).1).tags = some ts) :
    ts ≠ [] ∧ ts.Nodup ∧
      (ts = ["Error"] ∨
        ((∀ x ∈ ts, x ∈ VALID_TAGS) ∧ ts.length ≤ 9)) := by
  cases hc : call r with
  | error e =>
    have hts : ts = ["Error"] := by
      simp [tagWrapper, tagItem, hc] at h
      exact h.symm
    subst hts
    exact ⟨by decide, by decide, Or.inl rfl⟩
  | ok resp =>
    have hts : ts = tagParse resp := by
      simp [tagWrapper, tagItem, hc] at h
      exact h.symm
    subst hts
    refine ⟨tagParse_ne_nil resp, tagParse_nodup resp, Or.inr ⟨tagParse_subset resp, ?_⟩⟩
    have hsub : tagParse resp ⊆ VALID_TAGS := fun x hx =>
      tagParse_subset resp x hx
    have : (tagParse resp).length ≤ VALID_TAGS.length :=
      ((tagParse_nodup resp).subperm hsub).length_le
    simpa using this

/-- Witness for C10: a permanently failing call yields the sentinel. -/
theorem tagWrapper_tags_spec_witness :
    (["Error"] : List String) ≠ []
    ∧ (["Error"] : List String).Nodup
    ∧ ((["Error"] : List String) = ["Error"] ∨
        ((∀ x ∈ (["Error"] : List String), x ∈ VALID_TAGS)
          ∧ (["Error"] : List String).length ≤ 9)) :=
  tagWrapper_tags_spec (fun _ => Except.error ()) recX ["Error"] rfl

end ArxivPipeline
